import Mathlib

/-!
Verification of the template-based username generator of `privacycow`
(`privacycow/privacycow.py`).

Strings are modelled as `List Char`.  The pseudo-random source and the
faker fragment provider are external collaborators of the generator; they
are modelled by an explicit `Oracle`: a finite list of integer draws (one
per `randrange` call) and a finite list of candidate name fragments (one
per faker call).  The unbounded retry-until-unique loop of the source is
modelled by consuming the oracle: an exhausted oracle corresponds to a run
of the loop that has not yet terminated, and is reported as an error so
that every theorem about a successful result is about a terminating run.

Python exceptions (`ValueError` from `int(...)` / `randrange`, and the
`SystemExit` raised by `validate_username`) are modelled with `Except`.
-/

namespace Privacycow

/-- The two brace characters, written by code point to keep string literals
plain elsewhere in this file. -/
def lbrace : Char := Char.ofNat 123

def rbrace : Char := Char.ofNat 125

def dquote : Char := Char.ofNat 34

def bslash : Char := Char.ofNat 92

/-- ASCII word characters.  (Python's `\w` additionally matches non-ASCII
word characters; the recognized part kinds and every property below only
involve the ASCII fragment, so the embedding restricts to it.) -/
def isWordChar (c : Char) : Bool :=
  (48 ≤ c.toNat && c.toNat ≤ 57) || (65 ≤ c.toNat && c.toNat ≤ 90) ||
    (97 ≤ c.toNat && c.toNat ≤ 122) || c = '_'

/-- Characters allowed inside a placeholder by the pattern `[\w:-]`
of `re.findall(r'{([\w:-]+)}', template)`. -/
def isPhChar (c : Char) : Bool := isWordChar c || c = ':' || c = '-'

/-- `str.split(':')` on a list of characters (Python's split with a
separator never returns an empty list). -/
def splitOnColon : List Char → List (List Char)
  | [] => [[]]
  | c :: rest =>
    if c = ':' then [] :: splitOnColon rest
    else
      match splitOnColon rest with
      | [] => [[c]]
      | t :: ts => (c :: t) :: ts

/-- `':'.join(parts)` on lists of characters. -/
def joinColon : List (List Char) → List Char
  | [] => []
  | [a] => a
  | a :: rest => a ++ ':' :: joinColon rest

/-- Decimal digits of a natural number, written with structural
recursion on a fuel argument so that concrete values reduce by `rfl`;
`natStr` below supplies sufficient fuel and `natStr_eq` recovers the
direct recursion. -/
def natStrGo : Nat → Nat → List Char
  | 0, _ => []
  | fuel + 1, n =>
    if n < 10 then [Nat.digitChar n]
    else natStrGo fuel (n / 10) ++ [Nat.digitChar (n % 10)]

/-- Decimal digits of a natural number, as characters (`str(n)` for
`n ≥ 0`). -/
def natStr (n : Nat) : List Char := natStrGo (n + 1) n

/-- `str(v)` for a Python integer `v`. -/
def intStr (v : Int) : List Char :=
  if v < 0 then '-' :: natStr v.natAbs else natStr v.toNat

/-- One step of Python `int()` digit parsing: digits with single
underscores allowed between digits, accumulating the value. -/
def digitsRest (acc : Nat) : List Char → Option Nat
  | [] => some acc
  | c :: rest =>
    if c.isDigit then digitsRest (acc * 10 + (c.toNat - 48)) rest
    else if c = '_' then
      match rest with
      | [] => none
      | d :: rest2 =>
        if d.isDigit then digitsRest (acc * 10 + (d.toNat - 48)) rest2 else none
  else none

/-- An unsigned decimal literal for `int()`: a digit followed by digits
with optional single separating underscores. -/
def intParseNat : List Char → Option Nat
  | [] => none
  | d :: rest => if d.isDigit then digitsRest (d.toNat - 48) rest else none

/-- Python `int(s)` on a token drawn from the placeholder alphabet
(`[\w-]`, no whitespace possible): an optional sign followed by digits
(with single underscore separators); anything else raises `ValueError`,
modelled as `none`.  (Python would also accept non-ASCII decimal digits;
placeholders are modelled over ASCII.) -/
def intParse : List Char → Option Int
  | '-' :: rest => (intParseNat rest).map (fun n => -(n : Int))
  | '+' :: rest => (intParseNat rest).map (fun n => (n : Int))
  | l => (intParseNat l).map (fun n => (n : Int))

/-- `re.findall(r'{([\w:-]+)}', template)`: scan left to right; at a
`{`, greedily take the run of `[\w:-]` characters; the match succeeds
exactly when that run is nonempty and is followed by `}` (the regex
cannot backtrack into a shorter run, because the character following any
shorter run is a `[\w:-]` character, never `}`); on success continue
after the match, otherwise continue at the next character. -/
def findallGo : Nat → List Char → List (List Char)
  | 0, _ => []
  | _ + 1, [] => []
  | fuel + 1, c :: rest =>
    if c = lbrace then
      match rest.dropWhile isPhChar with
      | b :: rest2 =>
        if b = rbrace then
          if rest.takeWhile isPhChar = [] then findallGo fuel rest
          else rest.takeWhile isPhChar :: findallGo fuel rest2
        else findallGo fuel rest
      | [] => findallGo fuel rest
  else findallGo fuel rest

def findall (l : List Char) : List (List Char) := findallGo l.length l

/-- `s.replace(pat, repl, 1)`: replace the first (leftmost) occurrence
of `pat`, if any. -/
def replaceFirst (pat repl : List Char) : List Char → List Char
  | [] => if pat.isPrefixOf ([] : List Char) then repl else []
  | c :: rest =>
    if pat.isPrefixOf (c :: rest) then repl ++ (c :: rest).drop pat.length
    else c :: replaceFirst pat repl rest

/-- Errors of a generation run.  `exhausted` marks a run of the
retry-until-unique loop that has not terminated within the modelled
randomness; the others model Python exceptions. -/
inductive GenErr
  | valueError
  | typeError
  | indexError
  | exhausted
  | invalid (msg : List Char)
  deriving DecidableEq, Repr

/-- The external randomness: one integer draw per `randrange` call and
one candidate fragment per faker call. -/
structure Oracle where
  nums : List Nat
  frags : List (List Char)
  deriving DecidableEq, Repr

/-- The `known` dictionary of `generate_realish_name`: the fragments
already produced in this pass, one list per recognized part kind. -/
structure GenState where
  numL : List (List Char)
  preL : List (List Char)
  firL : List (List Char)
  lasL : List (List Char)
  sufL : List (List Char)
  deriving DecidableEq, Repr

def initState : GenState := ⟨[], [], [], [], []⟩

/-- The keys of the `known` dictionary: the recognized part kinds. -/
def knownKeys : List (List Char) :=
  ["number".data, "prefix".data, "first_name".data, "last_name".data, "suffix".data]

def knownGet (st : GenState) (name : List Char) : List (List Char) :=
  if name = "number".data then st.numL
  else if name = "prefix".data then st.preL
  else if name = "first_name".data then st.firL
  else if name = "last_name".data then st.lasL
  else st.sufL

def knownAppend (st : GenState) (name : List Char) (g : List Char) : GenState :=
  if name = "number".data then { st with numL := st.numL ++ [g] }
  else if name = "prefix".data then { st with preL := st.preL ++ [g] }
  else if name = "first_name".data then { st with firL := st.firL ++ [g] }
  else if name = "last_name".data then { st with lasL := st.lasL ++ [g] }
  else { st with sufL := st.sufL ++ [g] }

/-- The `gender` mapping (`f`/`m`/`n` to a faker method suffix). -/
def genderLookup (t : List Char) : Option (List Char) :=
  if t = "f".data then some "_female".data
  else if t = "m".data then some "_male".data
  else if t = "n".data then some "_nonbinary".data
  else none

/-- The `lang` value computed from the colon-split tokens:
`sex = gender.get(part[1], '')`, `lang = part[1] if not sex else None`,
`lang = part[2] if (lang is None and len(part) > 2) else lang`. -/
def langOf (toks : List (List Char)) : Option (List Char) :=
  match toks with
  | _ :: t1 :: rest => if (genderLookup t1).isSome then rest.head? else some t1
  | _ => none

/-- `randrange(*args)` on the `n`-th oracle draw: the result is a member
of the requested range (a `randrange` guarantee), obtained here by
reducing the draw modulo the range size; an empty range raises
`ValueError`, a wrong number of arguments `TypeError`. -/
def randrangeM (args : List Int) (n : Nat) : Except GenErr Int :=
  match args with
  | [stop] => if 0 < stop then .ok ((n : Int) % stop) else .error .valueError
  | [start, stop] =>
      if start < stop then .ok (start + (n : Int) % (stop - start))
      else .error .valueError
  | [start, stop, step] =>
      if step = 0 then .error .valueError
      else
        let k : Int :=
          if 0 < step then (stop - start + step - 1) / step
          else (stop - start + step + 1) / step
        if 0 < k then .ok (start + step * ((n : Int) % k)) else .error .valueError
  | _ => .error .typeError

def optValue {α : Type} (o : Option α) : Except GenErr α :=
  o.elim (.error .valueError) .ok

/-- The `range` list computed for a `number` part (before the
`range[1] += 1` adjustment): when `lang is None` the branch depends on
the token count, otherwise every colon token — including the literal
kind name `number` — is passed to `int(...)`. -/
def numberArgs (toks : List (List Char)) (lang : Option (List Char)) :
    Except GenErr (List Int) :=
  match lang with
  | none =>
    if toks.length = 3 then (toks.drop 1).mapM (fun t => optValue (intParse t))
    else if toks.length = 2 then do
      let u ← optValue (intParse (toks.getD 1 []))
      pure [0, u]
    else pure [0, 1000]
  | some _ => toks.mapM (fun t => optValue (intParse t))

/-- `range[1] += 1`. -/
def bumpStop (args : List Int) : Except GenErr (List Int) :=
  match args with
  | a :: b :: rest => .ok (a :: (b + 1) :: rest)
  | _ => .error .indexError

/-- The retry loop for a `number` part: draw with `randrange` until the
decimal rendering is new for this kind. -/
def numberLoop (args : List Int) (knownL : List (List Char)) :
    List Nat → Except GenErr (List Char × List Nat)
  | [] => .error .exhausted
  | n :: ns => do
    let v ← randrangeM args n
    let g := intStr v
    if g ∈ knownL then numberLoop args knownL ns else .ok (g, ns)

/-- `re.sub(r'[^\w]+', '', s)`: remove every non-word character. -/
def stripNonWord (s : List Char) : List Char := s.filter isWordChar

/-- The retry loop for a name part: ask the fragment provider, strip
non-word characters, retry until the fragment is new for this kind. -/
def nameLoop (knownL : List (List Char)) :
    List (List Char) → Except GenErr (List Char × List (List Char))
  | [] => .error .exhausted
  | s :: ss =>
    let g := stripNonWord s
    if g ∈ knownL then nameLoop knownL ss else .ok (g, ss)

/-- Whether a placeholder's first colon token is a recognized part kind. -/
def recognizedB (p : List Char) : Bool :=
  decide ((splitOnColon p).headD [] ∈ knownKeys)

/-- Process one element of `re.findall`'s result: split it on `':'`,
skip it if the kind is unrecognized, otherwise generate a fresh
fragment, record it in `known`, and replace the first occurrence of the
placeholder text in the current template.  (The `Faker` construction and
its `AttributeError` fallback only select the external fragment
provider, whose outputs are the oracle's fragment stream; the `range`
computation is loop-invariant and hoisted out of the retry loop.) -/
def processPart (o : Oracle) (st : GenState) (tmpl : List Char) (p : List Char) :
    Except GenErr (Oracle × GenState × List Char) := do
  let toks := splitOnColon p
  let name := toks.headD []
  if name ∈ knownKeys then
    let lang := langOf toks
    let (g, o') ←
      if name = "number".data then do
        let args0 ← numberArgs toks lang
        let args ← bumpStop args0
        let (g, ns) ← numberLoop args (knownGet st name) o.nums
        pure (g, { o with nums := ns })
      else do
        let (g, fs) ← nameLoop (knownGet st name) o.frags
        pure (g, { o with frags := fs })
    let st' := knownAppend st name g
    let tmpl' := replaceFirst (lbrace :: (joinColon toks ++ [rbrace])) g tmpl
    pure (o', st', tmpl')
  else
    pure (o, st, tmpl)

/-- The `for part in parts` loop of `generate_realish_name`: the parts
list was computed once from the original template, while the template
string is rewritten as the loop advances. -/
def renderLoop (o : Oracle) (st : GenState) (tmpl : List Char) :
    List (List Char) → Except GenErr (Oracle × GenState × List Char)
  | [] => .ok (o, st, tmpl)
  | p :: ps => do
    let (ost : Oracle × GenState × List Char) ← processPart o st tmpl p
    renderLoop ost.1 ost.2.1 ost.2.2 ps

/-- Python `str.lower()` on the ASCII range (it is applied only to
`unidecode` output, which is ASCII). -/
def pyLower (c : Char) : Char :=
  if 65 ≤ c.toNat ∧ c.toNat ≤ 90 then Char.ofNat (c.toNat + 32) else c

/-- `unidecode(template).lower()`: transliterate each character through
the (externally supplied) `unidecode` table, then lowercase. -/
def normalizeL (uni : Char → List Char) (l : List Char) : List Char :=
  (l.flatMap uni).map pyLower

/-- The characters a first atom may contain, from the character class
`[a-z0-9!#$%&'*+/=?^_`{|}~-]` of the local-part regex (codes spelled
out; note it contains the braces, codes 123 and 125, and the bar, 124). -/
def isAtom1 (c : Char) : Bool :=
  (97 ≤ c.toNat && c.toNat ≤ 122) || (48 ≤ c.toNat && c.toNat ≤ 57) ||
  c.toNat = 33 || c.toNat = 35 || c.toNat = 36 || c.toNat = 37 || c.toNat = 38 ||
  c.toNat = 39 || c.toNat = 42 || c.toNat = 43 || c.toNat = 47 || c.toNat = 61 ||
  c.toNat = 63 || c.toNat = 94 || c.toNat = 95 || c.toNat = 96 || c.toNat = 123 ||
  c.toNat = 124 || c.toNat = 125 || c.toNat = 126 || c.toNat = 45

/-- The characters of the atoms after a dot, `[a-z0-9!#$%&'*+/=^_`{|}~-]`:
the same class except that it lacks `?` (code 63). -/
def isAtom2 (c : Char) : Bool :=
  (97 ≤ c.toNat && c.toNat ≤ 122) || (48 ≤ c.toNat && c.toNat ≤ 57) ||
  c.toNat = 33 || c.toNat = 35 || c.toNat = 36 || c.toNat = 37 || c.toNat = 38 ||
  c.toNat = 39 || c.toNat = 42 || c.toNat = 43 || c.toNat = 47 || c.toNat = 61 ||
  c.toNat = 94 || c.toNat = 95 || c.toNat = 96 || c.toNat = 123 ||
  c.toNat = 124 || c.toNat = 125 || c.toNat = 126 || c.toNat = 45

/-- The plain characters of a quoted string,
`[\x01-\x08\x0b\x0c\x0e-\x1f\x21\x23-\x5b\x5d-\x7f]`. -/
def isQChar (c : Char) : Bool :=
  (1 ≤ c.toNat && c.toNat ≤ 8) || c.toNat = 11 || c.toNat = 12 ||
  (14 ≤ c.toNat && c.toNat ≤ 31) || c.toNat = 33 ||
  (35 ≤ c.toNat && c.toNat ≤ 91) || (93 ≤ c.toNat && c.toNat ≤ 127)

/-- The characters allowed after a backslash in a quoted string,
`[\x01-\x09\x0b\x0c\x0e-\x7f]`. -/
def isEChar (c : Char) : Bool :=
  (1 ≤ c.toNat && c.toNat ≤ 9) || c.toNat = 11 || c.toNat = 12 ||
  (14 ≤ c.toNat && c.toNat ≤ 127)

/-- The `(?:\.[...]+)*` tail of the dot-atom alternative: a sequence of
groups, each a dot followed by a nonempty run of `isAtom2` characters.
Since the atom classes do not contain the dot, the greedy run is the
only possible match and no backtracking arises. -/
def dotTailGo : Nat → List Char → Bool
  | 0, l => l.isEmpty
  | _ + 1, [] => true
  | fuel + 1, c :: r =>
    c = '.' && decide (r.takeWhile isAtom2 ≠ []) && dotTailGo fuel (r.dropWhile isAtom2)

def dotTailB (l : List Char) : Bool := dotTailGo l.length l

/-- The first alternative of the local-part regex:
`[...]+(?:\.[...]+)*`. -/
def dotAtomB (l : List Char) : Bool :=
  decide (l.takeWhile isAtom1 ≠ []) && dotTailB (l.dropWhile isAtom1)

/-- Match the remainder of the quoted alternative `"(?:Q|\\E)*"` after
its opening quote.  A literal `"` is not a `Q` character and `\` starts
the escape branch, so the scan is deterministic: a quote always closes
the string (and `fullmatch` requires it to end the input). -/
def quotedTailGo : Nat → List Char → Bool
  | 0, _ => false
  | _ + 1, [] => false
  | fuel + 1, c :: rest =>
    if c = dquote then rest.isEmpty
    else if c = bslash then
      match rest with
      | [] => false
      | e :: r => isEChar e && quotedTailGo fuel r
    else isQChar c && quotedTailGo fuel rest

def quotedTailB (l : List Char) : Bool := quotedTailGo l.length l

/-- `re.fullmatch` of the local-part regex
`(?:[a-z0-9!#$%&'*+/=?^_`{|}~-]+(?:\.[a-z0-9!#$%&'*+/=^_`{|}~-]+)*|"(?:[..]|\\[..])*")`.
The quoted alternative applies exactly to strings opening with `"`
(which no atom may contain), so the alternation is decided by the first
character. -/
def localPartB (l : List Char) : Bool :=
  match l with
  | c :: rest => if c = dquote then quotedTailB rest else dotAtomB l
  | [] => false

/-- The text of the `SystemExit` raised by `validate_username`, up to the
configured relay domain. -/
def errPre : List Char :=
  ("There was an error when generating a real-ish username, " ++
   "please check the TEMPLATE value in your config file for [").data

/-- The text between the relay domain and the offending string. -/
def errMid : List Char := "] - \"".data

/-- The text after the offending string. -/
def errSuf : List Char := "\" is not valid.".data

/-- `validate_username(template)`: return the string unchanged when it
fully matches the local-part regex, otherwise raise `SystemExit` with a
message naming the configured relay domain `d` and the offending
string. -/
def validate_username (d t : List Char) : Except (List Char) (List Char) :=
  if localPartB t then .ok t
  else .error (errPre ++ d ++ errMid ++ t ++ errSuf)

/-- `generate_realish_name(template)`: replace each recognized
placeholder found by `re.findall` with a fresh fragment, transliterate
and lowercase the result, and validate it as an email local-part.
`uni` is the external `unidecode` table and `d` the configured
`RELAY_DOMAIN`. -/
def generate_realish_name (uni : Char → List Char) (d : List Char)
    (template : List Char) (o : Oracle) : Except GenErr (List Char) := do
  let (res : Oracle × GenState × List Char) ←
    renderLoop o initState template (findall template)
  let t2 := normalizeL uni res.2.2
  match validate_username d t2 with
  | .ok u => pure u
  | .error m => .error (.invalid m)

/-- `VOWELS` of the source. -/
def VOWELS : List Char := "aeiou".data

/-- `CONSONANTS` of the source. -/
def CONSONANTS : List Char := "bcdfghjklmnpqrstvwxyz".data

/-- The loop body of `readable_random_string`: `k` remaining iterations,
each appending `choice(CONSONANTS)` then `choice(VOWELS)`; the `i`-th
iteration's choices are the oracle values `cSel i` and `vSel i` taken
modulo the alphabet sizes. -/
def rrsGo (cSel vSel : Nat → Nat) : Nat → Nat → List Char
  | _, 0 => []
  | i, k + 1 =>
    CONSONANTS.getD (cSel i % 21) 'b' :: VOWELS.getD (vSel i % 5) 'a' ::
      rrsGo cSel vSel (i + 1) k

/-- `readable_random_string(length)`: `int(length / 2)` consonant–vowel
pairs. -/
def readable_random_string (len : Nat) (cSel vSel : Nat → Nat) : List Char :=
  rrsGo cSel vSel 0 (len / 2)

/-- `generate_mailcow_username()`: two readable random strings of length
`randint(3, 9)` (that is, `3 + n % 7` for an oracle draw `n`), joined by
a literal dot. -/
def generate_mailcow_username (n₁ n₂ : Nat) (c₁ v₁ c₂ v₂ : Nat → Nat) : List Char :=
  readable_random_string (3 + n₁ % 7) c₁ v₁ ++ '.' ::
    readable_random_string (3 + n₂ % 7) c₂ v₂

/-- A fragment substituted for a placeholder: it never contains a brace. -/
def fragOk (g : List Char) : Prop := ∀ c ∈ g, c ≠ lbrace ∧ c ≠ rbrace

/-- The per-kind `known` lists hold pairwise-distinct fragments. -/
def stateNodup (st : GenState) : Prop :=
  st.numL.Nodup ∧ st.preL.Nodup ∧ st.firL.Nodup ∧ st.lasL.Nodup ∧ st.sufL.Nodup

/-- C10: the unquoted atom character class of the local-part regex
contains `{` (123), `|` (124) and `}` (125), so strings with literal
braces pass `validate_username` unchanged — the validator does not
enforce the absence of braces in rendered output. -/
instance : DecidableEq (Except (List Char) (List Char)) := fun a b =>
  match a, b with
  | .ok x, .ok y =>
    if h : x = y then .isTrue (by rw [h]) else .isFalse (by simp [h])
  | .error x, .error y =>
    if h : x = y then .isTrue (by rw [h]) else .isFalse (by simp [h])
  | .ok _, .error _ => .isFalse (by simp)
  | .error _, .ok _ => .isFalse (by simp)

/-- Consonant/vowel alternation starting with a consonant, in pairs. -/
def altCV : List Char → Bool
  | [] => true
  | [_] => false
  | c :: v :: rest => decide (c ∈ CONSONANTS) && decide (v ∈ VOWELS) && altCV rest

/-! ### Structured templates

A template whose brace structure is sane decomposes into literal chunks
(free of braces) and placeholder chunks `{p}` with `p` a nonempty run of
placeholder characters.  The lemmas below show what `re.findall` and the
replacement loop do to such a template. -/

inductive Chunk : Type
  | lit (l : List Char)
  | ph (p : List Char)
  deriving DecidableEq, Repr

def Chunk.render : Chunk → List Char
  | .lit l => l
  | .ph p => lbrace :: (p ++ [rbrace])

/-- A well-formed chunk: literal text free of braces, placeholder inner
text a nonempty run of `[\w:-]` characters. -/
def Chunk.Good : Chunk → Prop
  | .lit l => ∀ c ∈ l, c ≠ lbrace ∧ c ≠ rbrace
  | .ph p => p ≠ [] ∧ ∀ c ∈ p, isPhChar c = true

def Chunk.phInner : Chunk → Option (List Char)
  | .lit _ => none
  | .ph p => some p

def renderT (cs : List Chunk) : List Char := (cs.map Chunk.render).flatten

/-- A chunk that may stand before the placeholder being replaced
without being touched: literal text free of `{`, or a placeholder with a
different inner text. -/
def PreOk (q : List Char) : Chunk → Prop
  | .lit l => ∀ c ∈ l, c ≠ lbrace
  | .ph r => (∀ c ∈ r, isPhChar c = true) ∧ r ≠ q

/-- A chunk left behind by the loop: literal text free of braces (either
original literal text, or a substituted brace-free fragment), or an
unrecognized placeholder, untouched. -/
def DoneOk : Chunk → Prop
  | .lit l => ∀ c ∈ l, c ≠ lbrace ∧ c ≠ rbrace
  | .ph p => (p ≠ [] ∧ ∀ c ∈ p, isPhChar c = true) ∧ recognizedB p = false

/-- How one pass transforms a chunk: literals are untouched,
unrecognized placeholders pass through, recognized placeholders become
brace-free fragments. -/
inductive StepR : Chunk → Chunk → Prop
  | lit (l : List Char) : StepR (.lit l) (.lit l)
  | unrec (p : List Char) (h : recognizedB p = false) : StepR (.ph p) (.ph p)
  | repl (p g : List Char) (h : recognizedB p = true) (hg : fragOk g) :
      StepR (.ph p) (.lit g)

/-- Contract of the external `unidecode` table: ASCII characters map to
themselves, every output character is ASCII, and the transliteration of
a non-ASCII character never emits a brace. -/
structure UniContract (uni : Char → List Char) : Prop where
  ascii_id : ∀ c : Char, c.toNat ≤ 127 → uni c = [c]
  ascii_out : ∀ c : Char, ∀ d ∈ uni c, d.toNat ≤ 127
  no_brace_hi : ∀ c : Char, 127 < c.toNat → ∀ d ∈ uni c, d ≠ lbrace ∧ d ≠ rbrace

/-- A minimal concrete model of `unidecode` satisfying the contract:
identity on ASCII, empty transliteration elsewhere. -/
def uniModel : Char → List Char := fun c => if c.toNat ≤ 127 then [c] else []

/-! ### The local-part grammar, stated as the spec reads
("a dot-separated sequence of atoms drawn from an allowed unquoted
character set, or a quoted string permitting escaped characters"),
and its equivalence with the transcribed matcher. -/

/-- Dot-separated join of atoms. -/
def joinDot : List (List Char) → List Char
  | [] => []
  | a :: as => a ++ (as.map (fun b => '.' :: b)).flatten

/-- The dot-atom form: a nonempty first atom over the first character
class, then further nonempty atoms over the second class, separated by
dots. -/
def SpecDotAtom (l : List Char) : Prop :=
  ∃ a as, l = joinDot (a :: as) ∧ (a ≠ [] ∧ ∀ c ∈ a, isAtom1 c = true) ∧
    ∀ b ∈ as, b ≠ [] ∧ ∀ c ∈ b, isAtom2 c = true

/-- The body of a quoted string: plain quoted characters and
backslash-escaped characters. -/
inductive SpecQSeq : List Char → Prop
  | nil : SpecQSeq []
  | qchar (c : Char) (h : isQChar c = true) (rest : List Char) (hr : SpecQSeq rest) :
      SpecQSeq (c :: rest)
  | esc (c : Char) (h : isEChar c = true) (rest : List Char) (hr : SpecQSeq rest) :
      SpecQSeq (bslash :: c :: rest)

/-- The email local-part grammar of the spec. -/
def SpecLocalPart (l : List Char) : Prop :=
  SpecDotAtom l ∨ ∃ m, SpecQSeq m ∧ l = dquote :: (m ++ [dquote])

/-! ### Theorems -/

theorem isPhChar_ne_braces {c : Char} (h : isPhChar c = true) :
    c ≠ lbrace ∧ c ≠ rbrace := by
  constructor <;> rintro rfl <;> simp [isPhChar, isWordChar, lbrace, rbrace] at h

theorem splitOnColon_ne_nil (l : List Char) : splitOnColon l ≠ [] := by
  induction l with
  | nil => simp [splitOnColon]
  | cons c rest ih =>
    simp only [splitOnColon]
    split
    · simp
    · cases h : splitOnColon rest with
      | nil => simp
      | cons t ts => simp

/-- Splitting on `':'` and joining back with `':'` restores the string:
`':'.join(p.split(':')) == p`. -/
theorem joinColon_splitOnColon (l : List Char) : joinColon (splitOnColon l) = l := by
  induction l with
  | nil => simp [splitOnColon, joinColon]
  | cons c rest ih =>
    simp only [splitOnColon]
    split
    · rename_i hc
      subst hc
      cases h : splitOnColon rest with
      | nil => exact absurd h (splitOnColon_ne_nil rest)
      | cons t ts =>
        rw [h] at ih
        cases ts with
        | nil => simpa [joinColon] using ih
        | cons u us => simpa [joinColon] using ih
    · cases h : splitOnColon rest with
      | nil => exact absurd h (splitOnColon_ne_nil rest)
      | cons t ts =>
        rw [h] at ih
        cases ts with
        | nil => simpa [joinColon] using ih
        | cons u us => simpa [joinColon] using ih

theorem natStrGo_fuel : ∀ f₁ f₂ n : Nat, n < f₁ → n < f₂ →
    natStrGo f₁ n = natStrGo f₂ n := by
  intro f₁
  induction f₁ with
  | zero => intro f₂ n h1; omega
  | succ f ih =>
    intro f₂ n h1 h2
    cases f₂ with
    | zero => omega
    | succ f' =>
      rw [natStrGo, natStrGo]
      by_cases hn : n < 10
      · rw [if_pos hn, if_pos hn]
      · rw [if_neg hn, if_neg hn]
        have hdiv : n / 10 < n := Nat.div_lt_self (by omega) (by omega)
        rw [ih f' (n / 10) (by omega) (by omega)]

/-- The recursion `natStr` satisfies. -/
theorem natStr_eq (n : Nat) : natStr n =
    if n < 10 then [Nat.digitChar n]
    else natStr (n / 10) ++ [Nat.digitChar (n % 10)] := by
  unfold natStr
  rw [natStrGo]
  by_cases hn : n < 10
  · rw [if_pos hn, if_pos hn]
  · rw [if_neg hn, if_neg hn]
    have hdiv : n / 10 < n := Nat.div_lt_self (by omega) (by omega)
    rw [natStrGo_fuel n (n / 10 + 1) (n / 10) (by omega) (by omega)]

theorem digitChar_lt_ten {d : Nat} (h : d < 10) :
    48 ≤ (Nat.digitChar d).toNat ∧ (Nat.digitChar d).toNat ≤ 57 := by
  interval_cases d <;> decide

theorem natStr_chars (n : Nat) : ∀ c ∈ natStr n, 48 ≤ c.toNat ∧ c.toNat ≤ 57 := by
  induction n using Nat.strong_induction_on with
  | _ n ih =>
    intro c hc
    rw [natStr_eq] at hc
    split at hc
    · rename_i h
      simp only [List.mem_singleton] at hc
      subst hc
      exact digitChar_lt_ten h
    · rename_i h
      rcases List.mem_append.1 hc with h1 | h1
      · exact ih (n / 10) (Nat.div_lt_self (by omega) (by omega)) c h1
      · simp only [List.mem_singleton] at h1
        subst h1
        exact digitChar_lt_ten (Nat.mod_lt _ (by omega))

/-- The decimal rendering of an integer never contains a brace. -/
theorem intStr_no_brace (v : Int) : ∀ c ∈ intStr v, c ≠ lbrace ∧ c ≠ rbrace := by
  intro c hc
  have digit_ok : ∀ m : Nat, ∀ d ∈ natStr m, d ≠ lbrace ∧ d ≠ rbrace := by
    intro m d hd
    have h48 := natStr_chars m d hd
    constructor <;> rintro rfl <;> revert h48 <;> decide
  unfold intStr at hc
  split at hc
  · rcases List.mem_cons.1 hc with rfl | hc
    · constructor <;> decide
    · exact digit_ok _ c hc
  · exact digit_ok _ c hc

theorem length_dropWhile_lt_cons {α : Type} (p : α → Bool) (c : α) (l : List α) :
    (l.dropWhile p).length < (c :: l).length := by
  have h1 : (l.dropWhile p).length ≤ l.length := (List.dropWhile_sublist _).length_le
  simp only [List.length_cons]
  omega

theorem findallGo_nil (f : Nat) : findallGo f [] = [] := by
  cases f <;> rfl

theorem findallGo_fuel : ∀ f₁ f₂ : Nat, ∀ l : List Char,
    l.length ≤ f₁ → l.length ≤ f₂ → findallGo f₁ l = findallGo f₂ l := by
  intro f₁
  induction f₁ with
  | zero =>
    intro f₂ l h1 _
    have hl : l = [] := List.length_eq_zero.1 (Nat.le_zero.1 h1)
    rw [hl, findallGo_nil, findallGo_nil]
  | succ f ih =>
    intro f₂ l h1 h2
    cases l with
    | nil => rw [findallGo_nil, findallGo_nil]
    | cons c rest =>
      cases f₂ with
      | zero => simp at h2
      | succ f' =>
        rw [findallGo, findallGo]
        simp only [List.length_cons] at h1 h2
        have hrest : rest.length ≤ f := by omega
        have hrest' : rest.length ≤ f' := by omega
        by_cases hc : c = lbrace
        · rw [if_pos hc, if_pos hc]
          cases hdrop : rest.dropWhile isPhChar with
          | nil => rw [ih f' rest hrest hrest']
          | cons b rest2 =>
            dsimp only
            have hlen : rest2.length ≤ rest.length - 1 := by
              have : (rest.dropWhile isPhChar).length ≤ rest.length :=
                (List.dropWhile_sublist _).length_le
              rw [hdrop] at this
              simp only [List.length_cons] at this
              omega
            by_cases hb : b = rbrace
            · rw [if_pos hb, if_pos hb]
              by_cases ht : rest.takeWhile isPhChar = []
              · rw [if_pos ht, if_pos ht, ih f' rest hrest hrest']
              · rw [if_neg ht, if_neg ht, ih f' rest2 (by omega) (by omega)]
            · rw [if_neg hb, if_neg hb, ih f' rest hrest hrest']
        · rw [if_neg hc, if_neg hc, ih f' rest hrest hrest']

/-- The recursion `findall` satisfies. -/
theorem findall_eq_cons (c : Char) (rest : List Char) :
    findall (c :: rest) =
      if c = lbrace then
        match rest.dropWhile isPhChar with
        | b :: rest2 =>
          if b = rbrace then
            if rest.takeWhile isPhChar = [] then findall rest
            else rest.takeWhile isPhChar :: findall rest2
          else findall rest
        | [] => findall rest
      else findall rest := by
  unfold findall
  rw [show (c :: rest).length = rest.length + 1 from rfl, findallGo]
  by_cases hc : c = lbrace
  · rw [if_pos hc, if_pos hc]
    cases hdrop : rest.dropWhile isPhChar with
    | nil => rfl
    | cons b rest2 =>
      dsimp only
      have hlen : rest2.length ≤ rest.length - 1 := by
        have : (rest.dropWhile isPhChar).length ≤ rest.length :=
          (List.dropWhile_sublist _).length_le
        rw [hdrop] at this
        simp only [List.length_cons] at this
        omega
      by_cases hb : b = rbrace
      · rw [if_pos hb, if_pos hb]
        by_cases ht : rest.takeWhile isPhChar = []
        · rw [if_pos ht, if_pos ht]
        · rw [if_neg ht, if_neg ht,
            findallGo_fuel rest.length rest2.length rest2 (by omega) (le_refl _)]
      · rw [if_neg hb, if_neg hb]
  · rw [if_neg hc, if_neg hc]

/-- If every character of `l₁` satisfies `p` and the head of `l₂` (if
any) does not, then `takeWhile p` and `dropWhile p` split `l₁ ++ l₂`
exactly at the boundary. -/
theorem takeWhile_dropWhile_exact (p : Char → Bool) (l₁ l₂ : List Char)
    (h1 : ∀ c ∈ l₁, p c = true) (h2 : ∀ c, l₂.head? = some c → p c = false) :
    (l₁ ++ l₂).takeWhile p = l₁ ∧ (l₁ ++ l₂).dropWhile p = l₂ := by
  induction l₁ with
  | nil =>
    cases l₂ with
    | nil => simp
    | cons b r =>
      have hb : p b = false := h2 b rfl
      simp [List.takeWhile_cons, List.dropWhile_cons, hb]
  | cons a l ih =>
    have ha : p a = true := h1 a (List.mem_cons_self _ _)
    have := ih (fun c hc => h1 c (List.mem_cons_of_mem _ hc))
    simp [List.takeWhile_cons, List.dropWhile_cons, ha, this.1, this.2]

theorem toNat_ofNat_lt {n : Nat} (h : n < 55296) : (Char.ofNat n).toNat = n := by
  rw [Char.ofNat, dif_pos (Or.inl h)]
  simp [Char.ofNatAux, Char.toNat, UInt32.toNat]

theorem dotTailGo_fuel : ∀ f₁ f₂ : Nat, ∀ l : List Char,
    l.length ≤ f₁ → l.length ≤ f₂ → dotTailGo f₁ l = dotTailGo f₂ l := by
  intro f₁
  induction f₁ with
  | zero =>
    intro f₂ l h1 _
    have hl : l = [] := List.length_eq_zero.1 (Nat.le_zero.1 h1)
    subst hl
    cases f₂ <;> rfl
  | succ f ih =>
    intro f₂ l h1 h2
    cases l with
    | nil => cases f₂ <;> rfl
    | cons c r =>
      cases f₂ with
      | zero => simp at h2
      | succ f' =>
        rw [dotTailGo, dotTailGo]
        simp only [List.length_cons] at h1 h2
        have hd : (r.dropWhile isAtom2).length ≤ r.length :=
          (List.dropWhile_sublist _).length_le
        rw [ih f' (r.dropWhile isAtom2) (by omega) (by omega)]

/-- The recursion `dotTailB` satisfies. -/
theorem dotTailB_eq : ∀ l : List Char,
    dotTailB l = match l with
      | [] => true
      | c :: r =>
        c = '.' && decide (r.takeWhile isAtom2 ≠ []) && dotTailB (r.dropWhile isAtom2) := by
  intro l
  cases l with
  | nil => rfl
  | cons c r =>
    unfold dotTailB
    rw [show (c :: r).length = r.length + 1 from rfl, dotTailGo]
    have hd : (r.dropWhile isAtom2).length ≤ r.length :=
      (List.dropWhile_sublist _).length_le
    rw [dotTailGo_fuel r.length (r.dropWhile isAtom2).length (r.dropWhile isAtom2)
      (by omega) (le_refl _)]

theorem quotedTailGo_fuel : ∀ f₁ f₂ : Nat, ∀ l : List Char,
    l.length ≤ f₁ → l.length ≤ f₂ → quotedTailGo f₁ l = quotedTailGo f₂ l := by
  intro f₁
  induction f₁ with
  | zero =>
    intro f₂ l h1 _
    have hl : l = [] := List.length_eq_zero.1 (Nat.le_zero.1 h1)
    subst hl
    cases f₂ <;> rfl
  | succ f ih =>
    intro f₂ l h1 h2
    cases l with
    | nil => cases f₂ <;> rfl
    | cons c rest =>
      cases f₂ with
      | zero => simp at h2
      | succ f' =>
        rw [quotedTailGo.eq_def, quotedTailGo.eq_def]
        dsimp only
        simp only [List.length_cons] at h1 h2
        by_cases hq : c = dquote
        · rw [if_pos hq, if_pos hq]
        · rw [if_neg hq, if_neg hq]
          by_cases hbs : c = bslash
          · rw [if_pos hbs, if_pos hbs]
            cases rest with
            | nil => rfl
            | cons e r =>
              dsimp only
              simp only [List.length_cons] at h1 h2
              rw [ih f' r (by omega) (by omega)]
          · rw [if_neg hbs, if_neg hbs, ih f' rest (by omega) (by omega)]

/-- The recursion `quotedTailB` satisfies. -/
theorem quotedTailB_eq : ∀ l : List Char,
    quotedTailB l = match l with
      | [] => false
      | c :: rest =>
        if c = dquote then rest.isEmpty
        else if c = bslash then
          match rest with
          | [] => false
          | e :: r => isEChar e && quotedTailB r
        else isQChar c && quotedTailB rest := by
  intro l
  cases l with
  | nil => rfl
  | cons c rest =>
    unfold quotedTailB
    rw [show (c :: rest).length = rest.length + 1 from rfl, quotedTailGo.eq_def]
    dsimp only
    by_cases hq : c = dquote
    · rw [if_pos hq, if_pos hq]
    · rw [if_neg hq, if_neg hq]
      by_cases hbs : c = bslash
      · rw [if_pos hbs, if_pos hbs]
        cases rest with
        | nil => rfl
        | cons e r =>
          dsimp only
          simp only [List.length_cons]
          rw [quotedTailGo_fuel (r.length + 1) r.length r (by omega) (le_refl _)]
      · rw [if_neg hbs, if_neg hbs]

/-! ### Properties of the number retry loop -/

theorem numberLoop_ok {args : List Int} {kn : List (List Char)} {ns : List Nat}
    {g : List Char} {ns' : List Nat} (h : numberLoop args kn ns = .ok (g, ns')) :
    (∃ n v, randrangeM args n = .ok v ∧ g = intStr v) ∧ g ∉ kn := by
  induction ns with
  | nil => simp [numberLoop] at h
  | cons n ns ih =>
    rw [numberLoop] at h
    cases hr : randrangeM args n with
    | error e => rw [hr] at h; simp [bind, Except.bind] at h
    | ok v =>
      rw [hr] at h
      simp only [bind, Except.bind] at h
      by_cases hm : intStr v ∈ kn
      · rw [if_pos hm] at h
        exact ih h
      · rw [if_neg hm] at h
        simp only [Except.ok.injEq, Prod.mk.injEq] at h
        exact ⟨⟨n, v, hr, h.1.symm⟩, h.1 ▸ hm⟩

theorem randrangeM_pair {start stop : Int} {n : Nat} {v : Int}
    (h : randrangeM [start, stop] n = .ok v) : start ≤ v ∧ v < stop := by
  rw [randrangeM] at h
  split at h
  · rename_i hlt
    simp only [Except.ok.injEq] at h
    subst h
    have h0 : (0 : Int) < stop - start := by omega
    have := Int.emod_nonneg (n : Int) (by omega : stop - start ≠ 0)
    have := Int.emod_lt_of_pos (n : Int) h0
    omega
  · simp at h

/-- The retry loop for a name part returns a fragment that is stripped
to word characters and fresh for its kind. -/
theorem nameLoop_ok {kn : List (List Char)} {fs : List (List Char)}
    {g : List Char} {fs' : List (List Char)}
    (h : nameLoop kn fs = .ok (g, fs')) :
    (∃ s, g = stripNonWord s) ∧ g ∉ kn := by
  induction fs with
  | nil => simp [nameLoop] at h
  | cons s ss ih =>
    rw [nameLoop] at h
    by_cases hm : stripNonWord s ∈ kn
    · rw [if_pos hm] at h
      exact ih h
    · rw [if_neg hm] at h
      simp only [Except.ok.injEq, Prod.mk.injEq] at h
      exact ⟨⟨s, h.1.symm⟩, h.1 ▸ hm⟩

theorem isWordChar_ne_braces {c : Char} (h : isWordChar c = true) :
    c ≠ lbrace ∧ c ≠ rbrace := by
  constructor <;> rintro rfl <;> simp [isWordChar, lbrace, rbrace] at h

theorem fragOk_intStr (v : Int) : fragOk (intStr v) := intStr_no_brace v

theorem fragOk_stripNonWord (s : List Char) : fragOk (stripNonWord s) := by
  intro c hc
  exact isWordChar_ne_braces (List.of_mem_filter hc)

/-- What a successful `processPart` does: an unrecognized kind leaves
everything unchanged; a recognized kind produces a brace-free fragment
that is fresh for its kind, records it, and replaces the first
occurrence of the placeholder text. -/
theorem processPart_spec {o : Oracle} {st : GenState} {tmpl p : List Char}
    {r : Oracle × GenState × List Char} (h : processPart o st tmpl p = .ok r) :
    (recognizedB p = false ∧ r = (o, st, tmpl)) ∨
    (recognizedB p = true ∧ ∃ g, fragOk g ∧
        g ∉ knownGet st ((splitOnColon p).headD []) ∧
        r.2.1 = knownAppend st ((splitOnColon p).headD []) g ∧
        r.2.2 = replaceFirst (lbrace :: (p ++ [rbrace])) g tmpl) := by
  rw [processPart] at h
  by_cases hk : (splitOnColon p).headD [] ∈ knownKeys
  · right
    refine ⟨by rw [recognizedB]; exact decide_eq_true hk, ?_⟩
    rw [if_pos hk] at h
    simp only [bind, Except.bind, pure, Except.pure] at h
    rw [joinColon_splitOnColon] at h
    by_cases hn : (splitOnColon p).headD [] = "number".data
    · rw [if_pos hn] at h
      cases ha : numberArgs (splitOnColon p) (langOf (splitOnColon p)) with
      | error e => rw [ha] at h; simp [bind, Except.bind] at h
      | ok args0 =>
        rw [ha] at h
        simp only [bind, Except.bind] at h
        cases hb : bumpStop args0 with
        | error e => rw [hb] at h; simp at h
        | ok args =>
          rw [hb] at h
          simp only at h
          cases hl : numberLoop args (knownGet st ((splitOnColon p).headD [])) o.nums with
          | error e => rw [hl] at h; simp at h
          | ok gns =>
            rw [hl] at h
            simp only [Except.ok.injEq] at h
            obtain ⟨⟨n, v, _, hg⟩, hfresh⟩ := numberLoop_ok hl
            exact ⟨gns.1, hg ▸ fragOk_intStr v, hfresh, by rw [← h], by rw [← h]⟩
    · rw [if_neg hn] at h
      cases hl : nameLoop (knownGet st ((splitOnColon p).headD [])) o.frags with
      | error e => rw [hl] at h; simp at h
      | ok gfs =>
        rw [hl] at h
        simp only [Except.ok.injEq] at h
        obtain ⟨⟨s, hg⟩, hfresh⟩ := nameLoop_ok hl
        exact ⟨gfs.1, hg ▸ fragOk_stripNonWord s, hfresh, by rw [← h], by rw [← h]⟩
  · left
    rw [if_neg hk] at h
    simp only [pure, Except.pure, Except.ok.injEq] at h
    exact ⟨by rw [recognizedB]; exact decide_eq_false hk, h.symm⟩

/-- C6: a `{number}` placeholder with no modifiers draws an integer in
the inclusive range `[0, 1000]` (the code builds `range = [0, 1000]`,
bumps the upper bound, and calls `randrange(0, 1001)`), records its
decimal rendering, and substitutes that rendering for the first
occurrence of the placeholder text. -/
theorem number_plain_in_range {o : Oracle} {st : GenState} {tmpl : List Char}
    {r : Oracle × GenState × List Char}
    (h : processPart o st tmpl "number".data = .ok r) :
    ∃ v : Int, 0 ≤ v ∧ v ≤ 1000 ∧
      r.2.1 = knownAppend st "number".data (intStr v) ∧
      r.2.2 = replaceFirst (lbrace :: ("number".data ++ [rbrace])) (intStr v) tmpl ∧
      intStr v ∉ knownGet st "number".data := by
  rw [processPart] at h
  simp only [show splitOnColon "number".data = ["number".data] from rfl] at h
  simp only [List.headD, show ("number".data ∈ knownKeys) = True by simp [knownKeys],
    if_true, langOf, numberArgs, bumpStop, bind, Except.bind, pure, Except.pure] at h
  simp only [List.length_cons, List.length_nil, List.drop, joinColon] at h
  norm_num at h
  cases hn : numberLoop [0, 1001] (knownGet st ['n', 'u', 'm', 'b', 'e', 'r']) o.nums with
  | error e => rw [hn] at h; exact absurd h (by simp)
  | ok gns =>
    rw [hn] at h
    simp only [Except.ok.injEq] at h
    obtain ⟨⟨n, v, hr, hg⟩, hfresh⟩ := numberLoop_ok hn
    have hb := randrangeM_pair hr
    refine ⟨v, hb.1, by omega, ?_, ?_, ?_⟩
    · rw [← h]
      simp [hg]
    · rw [← h]
      simp [hg]
    · rw [← hg]
      exact hfresh

/-- Witness for `number_plain_in_range`: a concrete run on the template
`"{number}"` with oracle draw 5 produces the fragment `"5"`. -/
theorem number_plain_in_range_witness :
    ∃ v : Int, 0 ≤ v ∧ v ≤ 1000 ∧
      (GenState.mk [['5']] [] [] [] []) = knownAppend initState "number".data (intStr v) ∧
      ['5'] = replaceFirst (lbrace :: ("number".data ++ [rbrace])) (intStr v)
          "\x7bnumber\x7d".data ∧
      intStr v ∉ knownGet initState "number".data :=
  @number_plain_in_range ⟨[5], []⟩ initState "\x7bnumber\x7d".data
    (⟨[], []⟩, GenState.mk [['5']] [] [] [] [], ['5']) (by rfl)

/-- C1 (refuted by the code): a bounded `{number:L:U}` or `{number:U}`
placeholder never produces a value at all.  With a numeric second token
the parsed `lang` is that token (it is not a gender code), so the code
takes the `range = [int(ppp) for ppp in part]` branch and evaluates
`int("number")`, which raises `ValueError` — for every random source,
before any draw is made. -/
theorem number_bounded_raises (uni : Char → List Char) (d : List Char) (o : Oracle) :
    generate_realish_name uni d "\x7bnumber:1:100\x7d".data o = .error .valueError ∧
    generate_realish_name uni d "\x7bnumber:999\x7d".data o = .error .valueError :=
  ⟨rfl, rfl⟩

theorem stateNodup_knownAppend {st : GenState} {name g : List Char}
    (hs : stateNodup st) (hf : g ∉ knownGet st name) :
    stateNodup (knownAppend st name g) := by
  obtain ⟨h1, h2, h3, h4, h5⟩ := hs
  unfold knownGet at hf
  unfold stateNodup knownAppend
  split_ifs at hf ⊢ <;>
    simp_all [List.nodup_append, List.disjoint_singleton]

theorem stateNodup_initState : stateNodup initState := by
  simp [stateNodup, initState]

theorem processPart_stateNodup {o : Oracle} {st : GenState} {tmpl p : List Char}
    {r : Oracle × GenState × List Char} (h : processPart o st tmpl p = .ok r)
    (hs : stateNodup st) : stateNodup r.2.1 := by
  rcases processPart_spec h with ⟨-, rfl⟩ | ⟨-, g, -, hfresh, hst, -⟩
  · exact hs
  · rw [hst]
    exact stateNodup_knownAppend hs hfresh

/-- C2: across one rendering pass, each accepted fragment is recorded in
the `known` list of its part kind, a candidate equal to a recorded
fragment of that kind is never accepted (the retry loop), and hence the
per-kind fragment lists stay pairwise distinct: no two placeholders of
the same recognized kind resolve to the identical fragment. -/
theorem renderLoop_no_repeats {ps : List (List Char)} {o : Oracle} {st : GenState}
    {tmpl : List Char} {r : Oracle × GenState × List Char}
    (h : renderLoop o st tmpl ps = .ok r) (hs : stateNodup st) :
    stateNodup r.2.1 := by
  induction ps generalizing o st tmpl with
  | nil =>
    rw [renderLoop] at h
    simp only [Except.ok.injEq] at h
    rw [← h]
    exact hs
  | cons p ps ih =>
    rw [renderLoop] at h
    simp only [bind, Except.bind] at h
    cases hp : processPart o st tmpl p with
    | error e => rw [hp] at h; simp at h
    | ok r1 =>
      rw [hp] at h
      exact ih h (processPart_stateNodup hp hs)

/-- Witness for `renderLoop_no_repeats`: rendering
`"{number}-{number}"` with draws `[5, 5, 7]` — the second placeholder
first draws the colliding `5`, retries, and accepts `7` — ends with the
distinct fragments `["5", "7"]` recorded for kind `number`. -/
theorem renderLoop_no_repeats_witness :
    stateNodup (GenState.mk [['5'], ['7']] [] [] [] []) :=
  @renderLoop_no_repeats (findall "\x7bnumber\x7d-\x7bnumber\x7d".data) ⟨[5, 5, 7], []⟩
    initState "\x7bnumber\x7d-\x7bnumber\x7d".data
    (⟨[], []⟩, GenState.mk [['5'], ['7']] [] [] [] [], ['5', '-', '7'])
    (by rfl) stateNodup_initState

theorem validate_username_accepts_braces :
    isAtom1 lbrace = true ∧ isAtom1 '|' = true ∧ isAtom1 rbrace = true ∧
    lbrace ∈ "\x7ba|b\x7d".data ∧ rbrace ∈ "\x7ba|b\x7d".data ∧
    validate_username "example.org".data "\x7ba|b\x7d".data = .ok "\x7ba|b\x7d".data := by
  decide

/-- Length, alternation and alphabet membership of the consonant–vowel
pair loop. -/
theorem rrsGo_spec (c v : Nat → Nat) : ∀ k i,
    (rrsGo c v i k).length = 2 * k ∧
    (∀ ch ∈ rrsGo c v i k, ch ∈ CONSONANTS ∨ ch ∈ VOWELS) := by
  intro k
  induction k with
  | zero => intro i; simp [rrsGo]
  | succ k ih =>
    intro i
    obtain ⟨ihl, ihm⟩ := ih (i + 1)
    refine ⟨by simp [rrsGo, ihl]; omega, ?_⟩
    intro ch hch
    simp only [rrsGo, List.mem_cons] at hch
    rcases hch with rfl | rfl | hch
    · left
      have h21 : c i % 21 < CONSONANTS.length := Nat.mod_lt _ (by decide)
      rw [List.getD_eq_getElem _ _ h21]
      exact List.getElem_mem h21
    · right
      have h5 : v i % 5 < VOWELS.length := Nat.mod_lt _ (by decide)
      rw [List.getD_eq_getElem _ _ h5]
      exact List.getElem_mem h5
    · exact ihm ch hch

theorem rrsGo_altCV (c v : Nat → Nat) : ∀ k i, altCV (rrsGo c v i k) = true := by
  intro k
  induction k with
  | zero => intro i; rfl
  | succ k ih =>
    intro i
    simp only [rrsGo, altCV, Bool.and_eq_true, decide_eq_true_eq]
    have h21 : c i % 21 < CONSONANTS.length := Nat.mod_lt _ (by decide)
    have h5 : v i % 5 < VOWELS.length := Nat.mod_lt _ (by decide)
    refine ⟨⟨?_, ?_⟩, ih (i + 1)⟩
    · rw [List.getD_eq_getElem _ _ h21]
      exact List.getElem_mem h21
    · rw [List.getD_eq_getElem _ _ h5]
      exact List.getElem_mem h5

theorem dot_notin_rrs (c v : Nat → Nat) (L : Nat) :
    '.' ∉ readable_random_string L c v := by
  intro hmem
  rcases (rrsGo_spec c v (L / 2) 0).2 '.' hmem with h | h <;> revert h <;> decide

/-- C8: `readable_random_string(L)` for even `L` has exactly `L`
characters, alternates consonant/vowel starting with a consonant, drawn
from the fixed 21-consonant and 5-vowel alphabets, and contains no dot;
`generate_mailcow_username` joins two such strings with one literal
dot, so its output contains exactly one dot. -/
theorem readable_random_string_even_spec (L : Nat) (hL : L % 2 = 0) (c v : Nat → Nat) :
    (readable_random_string L c v).length = L ∧
    altCV (readable_random_string L c v) = true ∧
    (∀ ch ∈ readable_random_string L c v, ch ∈ CONSONANTS ∨ ch ∈ VOWELS) ∧
    '.' ∉ readable_random_string L c v ∧
    ∀ n₁ n₂ c₁ v₁ c₂ v₂,
      (generate_mailcow_username n₁ n₂ c₁ v₁ c₂ v₂).count '.' = 1 := by
  obtain ⟨hlen, hmem⟩ := rrsGo_spec c v (L / 2) 0
  refine ⟨by rw [readable_random_string, hlen]; omega,
    rrsGo_altCV c v (L / 2) 0, hmem, dot_notin_rrs c v L, ?_⟩
  intro n₁ n₂ c₁ v₁ c₂ v₂
  rw [generate_mailcow_username, List.count_append, List.count_cons]
  rw [List.count_eq_zero.2 (dot_notin_rrs c₁ v₁ _),
    List.count_eq_zero.2 (dot_notin_rrs c₂ v₂ _)]
  simp

/-- Witness for `readable_random_string_even_spec` at the spec's own
test length 6. -/
theorem readable_random_string_even_spec_witness :
    (readable_random_string 6 (fun i => i) (fun i => i)).length = 6 ∧
    altCV (readable_random_string 6 (fun i => i) (fun i => i)) = true ∧
    (∀ ch ∈ readable_random_string 6 (fun i => i) (fun i => i),
      ch ∈ CONSONANTS ∨ ch ∈ VOWELS) ∧
    '.' ∉ readable_random_string 6 (fun i => i) (fun i => i) ∧
    ∀ n₁ n₂ c₁ v₁ c₂ v₂,
      (generate_mailcow_username n₁ n₂ c₁ v₁ c₂ v₂).count '.' = 1 :=
  readable_random_string_even_spec 6 (by decide) (fun i => i) (fun i => i)

/-- C9: for odd `n` the loop runs `int(n / 2) = (n - 1) / 2` times, so
`readable_random_string(n)` has `n - 1` characters; consequently each
half of `generate_mailcow_username` — whose requested length is
`randint(3, 9)`, i.e. `3 + m % 7` — has even length between 2 and 8,
and the username is exactly the two halves joined by a dot. -/
theorem readable_random_string_odd_len (n : Nat) (hn : n % 2 = 1) (c v : Nat → Nat) :
    (readable_random_string n c v).length = n - 1 ∧
    (∀ m : Nat, ∀ cs vs : Nat → Nat,
      (readable_random_string (3 + m % 7) cs vs).length % 2 = 0 ∧
      2 ≤ (readable_random_string (3 + m % 7) cs vs).length ∧
      (readable_random_string (3 + m % 7) cs vs).length ≤ 8) ∧
    (∀ n₁ n₂ c₁ v₁ c₂ v₂, generate_mailcow_username n₁ n₂ c₁ v₁ c₂ v₂ =
      readable_random_string (3 + n₁ % 7) c₁ v₁ ++ '.' ::
        readable_random_string (3 + n₂ % 7) c₂ v₂) := by
  refine ⟨?_, ?_, fun n₁ n₂ c₁ v₁ c₂ v₂ => rfl⟩
  · rw [readable_random_string, (rrsGo_spec c v (n / 2) 0).1]
    omega
  · intro m cs vs
    rw [readable_random_string, (rrsGo_spec cs vs ((3 + m % 7) / 2) 0).1]
    have : m % 7 < 7 := Nat.mod_lt _ (by omega)
    omega

/-- Witness for `readable_random_string_odd_len` at n = 7: six
characters come back. -/
theorem readable_random_string_odd_len_witness :
    (readable_random_string 7 (fun i => i) (fun i => i)).length = 7 - 1 ∧
    (∀ m : Nat, ∀ cs vs : Nat → Nat,
      (readable_random_string (3 + m % 7) cs vs).length % 2 = 0 ∧
      2 ≤ (readable_random_string (3 + m % 7) cs vs).length ∧
      (readable_random_string (3 + m % 7) cs vs).length ≤ 8) ∧
    (∀ n₁ n₂ c₁ v₁ c₂ v₂, generate_mailcow_username n₁ n₂ c₁ v₁ c₂ v₂ =
      readable_random_string (3 + n₁ % 7) c₁ v₁ ++ '.' ::
        readable_random_string (3 + n₂ % 7) c₂ v₂) :=
  readable_random_string_odd_len 7 (by decide) (fun i => i) (fun i => i)

theorem renderT_nil : renderT [] = [] := rfl

theorem renderT_cons (ch : Chunk) (cs : List Chunk) :
    renderT (ch :: cs) = ch.render ++ renderT cs := by
  simp [renderT]

theorem renderT_append (xs ys : List Chunk) :
    renderT (xs ++ ys) = renderT xs ++ renderT ys := by
  simp [renderT]

theorem isPhChar_rbrace : isPhChar rbrace = false := by decide

theorem isPhChar_lbrace : isPhChar lbrace = false := by decide

/-- Scanning text without `{` finds nothing before the rest. -/
theorem findall_append_no_lbrace (l r : List Char) (hl : ∀ c ∈ l, c ≠ lbrace) :
    findall (l ++ r) = findall r := by
  induction l with
  | nil => rfl
  | cons c l ih =>
    rw [List.cons_append, findall_eq_cons,
      if_neg (hl c (List.mem_cons_self _ _)),
      ih (fun c hc => hl c (List.mem_cons_of_mem _ hc))]

/-- A placeholder at the scan position is matched exactly, and scanning
resumes after it. -/
theorem findall_at_ph (p rest : List Char) (hp : p ≠ []) (hpc : ∀ c ∈ p, isPhChar c = true) :
    findall (lbrace :: (p ++ rbrace :: rest)) = p :: findall rest := by
  rw [findall_eq_cons, if_pos rfl]
  obtain ⟨htake, hdrop⟩ := takeWhile_dropWhile_exact isPhChar p (rbrace :: rest) hpc
    (by intro c hc; simp only [List.head?_cons, Option.some.injEq] at hc
        rw [← hc]; exact isPhChar_rbrace)
  rw [hdrop]
  dsimp only
  rw [if_pos rfl, htake, if_neg hp]

/-- `re.findall` on a structured template returns exactly the
placeholder inner texts, in order. -/
theorem findall_renderT (cs : List Chunk) (h : ∀ ch ∈ cs, ch.Good) :
    findall (renderT cs) = cs.filterMap Chunk.phInner := by
  induction cs with
  | nil => rfl
  | cons ch cs ih =>
    have hch := h ch (List.mem_cons_self _ _)
    have hcs := fun c hc => h c (List.mem_cons_of_mem _ hc)
    cases ch with
    | lit l =>
      rw [renderT_cons, Chunk.render,
        findall_append_no_lbrace l _ (fun c hc => (hch c hc).1), ih hcs]
      rfl
    | ph p =>
      rw [renderT_cons, Chunk.render]
      have : lbrace :: (p ++ [rbrace]) ++ renderT cs =
          lbrace :: (p ++ rbrace :: renderT cs) := by simp
      rw [this, findall_at_ph p _ hch.1 hch.2, ih hcs]
      rfl

/-- `replaceFirst` walks over a character that cannot start a match. -/
theorem replaceFirst_cons_no_match (pat g : List Char) (c : Char) (s : List Char)
    (h : pat.isPrefixOf (c :: s) = false) :
    replaceFirst pat g (c :: s) = c :: replaceFirst pat g s := by
  rw [replaceFirst, if_neg (by rw [h]; exact Bool.false_ne_true)]

/-- `replaceFirst` with a pattern opening with `{` walks over text free
of `{`. -/
theorem replaceFirst_append_no_lbrace (q g l s : List Char)
    (hl : ∀ c ∈ l, c ≠ lbrace) :
    replaceFirst (lbrace :: q) g (l ++ s) = l ++ replaceFirst (lbrace :: q) g s := by
  induction l with
  | nil => rfl
  | cons c l ih =>
    rw [List.cons_append, replaceFirst_cons_no_match _ _ _ _
      (by simp [List.isPrefixOf]
          intro hc
          exact absurd hc.symm (hl c (List.mem_cons_self _ _))),
      ih (fun c hc => hl c (List.mem_cons_of_mem _ hc))]
    rfl

/-- Two distinct placeholders never overlap: `{q}` is not a prefix of
`{r}…` when `r ≠ q` and both inner texts avoid braces. -/
theorem ph_pat_no_overlap (q r : List Char) (hq : ∀ c ∈ q, isPhChar c = true)
    (hr : ∀ c ∈ r, isPhChar c = true) (hne : r ≠ q) (s : List Char) :
    (lbrace :: (q ++ [rbrace])).isPrefixOf (lbrace :: (r ++ rbrace :: s)) = false := by
  have key : ∀ q r : List Char, (∀ c ∈ q, isPhChar c = true) →
      (∀ c ∈ r, isPhChar c = true) → r ≠ q → ∀ s,
      ¬ (q ++ [rbrace]) <+: (r ++ rbrace :: s) := by
    intro q
    induction q with
    | nil =>
      intro r hq hr hne s hpre
      cases r with
      | nil => exact hne rfl
      | cons c r' =>
        simp only [List.nil_append, List.cons_append, List.cons_prefix_cons] at hpre
        have := hr c (List.mem_cons_self _ _)
        rw [← hpre.1] at this
        rw [isPhChar_rbrace] at this
        exact Bool.false_ne_true this
    | cons a q' ih =>
      intro r hq hr hne s hpre
      cases r with
      | nil =>
        simp only [List.cons_append, List.nil_append, List.cons_prefix_cons] at hpre
        have := hq a (List.mem_cons_self _ _)
        rw [hpre.1, isPhChar_rbrace] at this
        exact Bool.false_ne_true this
      | cons c r' =>
        simp only [List.cons_append, List.cons_prefix_cons] at hpre
        refine ih r' (fun x hx => hq x (List.mem_cons_of_mem _ hx))
          (fun x hx => hr x (List.mem_cons_of_mem _ hx)) ?_ s hpre.2
        intro hrq
        exact hne (by rw [hrq, hpre.1])
  rw [← Bool.not_eq_true]
  intro hb
  rw [List.isPrefixOf_iff_prefix] at hb
  simp only [List.cons_prefix_cons] at hb
  exact key q r hq hr hne s hb.2

/-- `replaceFirst` walks over a whole placeholder chunk whose inner text
differs from the pattern's. -/
theorem replaceFirst_skip_ph (q g r s : List Char) (hq : ∀ c ∈ q, isPhChar c = true)
    (hr : ∀ c ∈ r, isPhChar c = true) (hne : r ≠ q) :
    replaceFirst (lbrace :: (q ++ [rbrace])) g (lbrace :: (r ++ rbrace :: s)) =
      lbrace :: (r ++ rbrace :: replaceFirst (lbrace :: (q ++ [rbrace])) g s) := by
  rw [replaceFirst_cons_no_match _ _ _ _ (ph_pat_no_overlap q r hq hr hne s)]
  have hrb : ∀ c ∈ r ++ [rbrace], c ≠ lbrace := by
    intro c hc
    rcases List.mem_append.1 hc with hc | hc
    · exact (isPhChar_ne_braces (hr c hc)).1
    · simp only [List.mem_singleton] at hc
      subst hc
      decide
  have : r ++ rbrace :: s = (r ++ [rbrace]) ++ s := by simp
  rw [this, replaceFirst_append_no_lbrace _ g _ s hrb]
  simp

/-- `replaceFirst` replaces an exact placeholder at the scan position. -/
theorem replaceFirst_at_ph (q g post : List Char) :
    replaceFirst (lbrace :: (q ++ [rbrace])) g (lbrace :: (q ++ rbrace :: post)) =
      g ++ post := by
  have hsplit : lbrace :: (q ++ rbrace :: post) = lbrace :: ((q ++ [rbrace]) ++ post) := by
    simp
  rw [hsplit, replaceFirst]
  have hpre : (lbrace :: (q ++ [rbrace])).isPrefixOf
      (lbrace :: ((q ++ [rbrace]) ++ post)) = true := by
    rw [List.isPrefixOf_iff_prefix]
    exact List.prefix_append (lbrace :: (q ++ [rbrace])) post
  rw [if_pos hpre]
  congr 1
  exact List.drop_left (lbrace :: (q ++ [rbrace])) post

/-- Replacing the first occurrence of `{q}` in a structured template
replaces exactly the first placeholder chunk with inner text `q`. -/
theorem replaceFirst_structured (q g : List Char) (hq : ∀ c ∈ q, isPhChar c = true)
    (post : List Chunk) :
    ∀ pre : List Chunk, (∀ ch ∈ pre, PreOk q ch) →
    replaceFirst (lbrace :: (q ++ [rbrace])) g (renderT (pre ++ .ph q :: post)) =
      renderT (pre ++ .lit g :: post) := by
  intro pre
  induction pre with
  | nil =>
    intro _
    rw [List.nil_append, List.nil_append, renderT_cons, renderT_cons]
    simp only [Chunk.render]
    have : lbrace :: (q ++ [rbrace]) ++ renderT post =
        lbrace :: (q ++ rbrace :: renderT post) := by simp
    rw [this, replaceFirst_at_ph]
  | cons ch pre ih =>
    intro hpre
    have hch := hpre ch (List.mem_cons_self _ _)
    have hrest := fun c hc => hpre c (List.mem_cons_of_mem _ hc)
    rw [List.cons_append, renderT_cons, List.cons_append, renderT_cons]
    cases ch with
    | lit l =>
      simp only [Chunk.render]
      rw [replaceFirst_append_no_lbrace _ _ _ _ hch, ih hrest]
    | ph r =>
      simp only [Chunk.render]
      have heq : lbrace :: (r ++ [rbrace]) ++ renderT (pre ++ Chunk.ph q :: post) =
          lbrace :: (r ++ rbrace :: renderT (pre ++ Chunk.ph q :: post)) := by simp
      rw [heq, replaceFirst_skip_ph q g r _ hq hch.1 hch.2, ih hrest]
      simp

theorem processPart_unrec {o : Oracle} {st : GenState} {tmpl p : List Char}
    (h : recognizedB p = false) : processPart o st tmpl p = .ok (o, st, tmpl) := by
  rw [processPart]
  rw [if_neg (by simpa [recognizedB] using h)]
  rfl

theorem DoneOk_preOk {q : List Char} (hq : recognizedB q = true) :
    ∀ ch : Chunk, DoneOk ch → PreOk q ch := by
  intro ch hch
  cases ch with
  | lit l => exact fun c hc => (hch c hc).1
  | ph r =>
    simp only [DoneOk] at hch
    refine ⟨hch.1.2, ?_⟩
    intro hrq
    subst hrq
    rw [hq] at hch
    simpa using hch.2

/-- The main loop on a structured template: each recognized placeholder
becomes a brace-free fragment, everything else survives literally. -/
theorem renderLoop_structured :
    ∀ todo done : List Chunk, ∀ o : Oracle, ∀ st : GenState,
    (∀ ch ∈ done, DoneOk ch) → (∀ ch ∈ todo, ch.Good) →
    ∀ r : Oracle × GenState × List Char,
    renderLoop o st (renderT (done ++ todo)) (todo.filterMap Chunk.phInner) = .ok r →
    ∃ todo' : List Chunk, List.Forall₂ StepR todo todo' ∧
      (∀ ch ∈ todo', DoneOk ch) ∧ r.2.2 = renderT (done ++ todo') := by
  intro todo
  induction todo with
  | nil =>
    intro done o st _ _ r h
    rw [List.filterMap_nil, renderLoop] at h
    simp only [Except.ok.injEq] at h
    exact ⟨[], List.Forall₂.nil, by simp, by rw [← h]⟩
  | cons ch rest ih =>
    intro done o st hdone htodo r h
    have hch := htodo ch (List.mem_cons_self _ _)
    have hrest := fun c hc => htodo c (List.mem_cons_of_mem _ hc)
    cases ch with
    | lit l =>
      rw [show (Chunk.lit l :: rest).filterMap Chunk.phInner =
          rest.filterMap Chunk.phInner by simp [Chunk.phInner],
        show done ++ Chunk.lit l :: rest = (done ++ [Chunk.lit l]) ++ rest by simp] at h
      obtain ⟨todo', hf, hdone', hrender⟩ := ih (done ++ [Chunk.lit l]) o st
        (by intro c hc
            rcases List.mem_append.1 hc with hc | hc
            · exact hdone c hc
            · simp only [List.mem_singleton] at hc
              subst hc
              exact hch) hrest r h
      refine ⟨Chunk.lit l :: todo', List.Forall₂.cons (StepR.lit l) hf, ?_, ?_⟩
      · intro c hc
        rcases List.mem_cons.1 hc with rfl | hc
        · exact hch
        · exact hdone' c hc
      · rw [hrender]
        simp
    | ph p =>
      rw [show (Chunk.ph p :: rest).filterMap Chunk.phInner =
          p :: rest.filterMap Chunk.phInner by simp [Chunk.phInner]] at h
      rw [renderLoop] at h
      simp only [bind, Except.bind] at h
      by_cases hrec : recognizedB p = true
      · cases hp : processPart o st (renderT (done ++ Chunk.ph p :: rest)) p with
        | error e => rw [hp] at h; simp at h
        | ok r1 =>
          rw [hp] at h
          dsimp only at h
          rcases processPart_spec hp with ⟨hfalse, -⟩ | ⟨-, g, hg, -, -, htmpl⟩
          · rw [hrec] at hfalse
            exact absurd hfalse (by decide)
          · have hpat : replaceFirst (lbrace :: (p ++ [rbrace])) g
                (renderT (done ++ Chunk.ph p :: rest)) =
                renderT ((done ++ [Chunk.lit g]) ++ rest) := by
              rw [replaceFirst_structured p g hch.2 rest done
                (fun c hc => DoneOk_preOk hrec c (hdone c hc))]
              simp
            rw [htmpl, hpat] at h
            obtain ⟨todo', hf, hdone', hrender⟩ := ih (done ++ [Chunk.lit g]) r1.1 r1.2.1
              (by intro c hc
                  rcases List.mem_append.1 hc with hc | hc
                  · exact hdone c hc
                  · simp only [List.mem_singleton] at hc
                    subst hc
                    exact hg) hrest r h
            refine ⟨Chunk.lit g :: todo',
              List.Forall₂.cons (StepR.repl p g hrec hg) hf, ?_, ?_⟩
            · intro c hc
              rcases List.mem_cons.1 hc with rfl | hc
              · exact hg
              · exact hdone' c hc
            · rw [hrender]
              simp
      · rw [Bool.not_eq_true] at hrec
        rw [processPart_unrec hrec] at h
        dsimp only at h
        rw [show done ++ Chunk.ph p :: rest = (done ++ [Chunk.ph p]) ++ rest by simp] at h
        obtain ⟨todo', hf, hdone', hrender⟩ := ih (done ++ [Chunk.ph p]) o st
          (by intro c hc
              rcases List.mem_append.1 hc with hc | hc
              · exact hdone c hc
              · simp only [List.mem_singleton] at hc
                subst hc
                exact ⟨hch, hrec⟩) hrest r h
        refine ⟨Chunk.ph p :: todo', List.Forall₂.cons (StepR.unrec p hrec) hf, ?_, ?_⟩
        · intro c hc
          rcases List.mem_cons.1 hc with rfl | hc
          · exact ⟨hch, hrec⟩
          · exact hdone' c hc
        · rw [hrender]
          simp

theorem uniModel_contract : UniContract uniModel := by
  refine ⟨?_, ?_, ?_⟩
  · intro c hc
    simp [uniModel, hc]
  · intro c d hd
    by_cases hc : c.toNat ≤ 127
    · simp only [uniModel, if_pos hc, List.mem_singleton] at hd
      rw [hd]
      exact hc
    · simp [uniModel, hc] at hd
  · intro c hc d hd
    simp [uniModel, show ¬ c.toNat ≤ 127 by omega] at hd

theorem pyLower_toNat_le {c : Char} (h : c.toNat ≤ 127) : (pyLower c).toNat ≤ 127 := by
  unfold pyLower
  split
  · rename_i hup
    rw [toNat_ofNat_lt (by omega)]
    omega
  · exact h

theorem pyLower_idem (c : Char) : pyLower (pyLower c) = pyLower c := by
  by_cases h : 65 ≤ c.toNat ∧ c.toNat ≤ 90
  · have h1 : pyLower c = Char.ofNat (c.toNat + 32) := if_pos h
    have h2 : (Char.ofNat (c.toNat + 32)).toNat = c.toNat + 32 :=
      toNat_ofNat_lt (by omega)
    rw [h1]
    unfold pyLower
    rw [if_neg (by rw [h2]; omega)]
  · have h1 : pyLower c = c := if_neg h
    rw [h1, h1]

theorem pyLower_ne_brace {c : Char} (h1 : c ≠ lbrace) (h2 : c ≠ rbrace) :
    pyLower c ≠ lbrace ∧ pyLower c ≠ rbrace := by
  unfold pyLower
  split
  · rename_i hup
    have ht : (Char.ofNat (c.toNat + 32)).toNat = c.toNat + 32 :=
      toNat_ofNat_lt (by omega)
    have hl : lbrace.toNat = 123 := by decide
    have hr : rbrace.toNat = 125 := by decide
    constructor
    · intro heq
      have hx := congrArg Char.toNat heq
      rw [ht] at hx
      omega
    · intro heq
      have hx := congrArg Char.toNat heq
      rw [ht] at hx
      omega
  · exact ⟨h1, h2⟩

/-- Normalization never introduces a brace into a brace-free string. -/
theorem normalizeL_no_brace {uni : Char → List Char} (hu : UniContract uni)
    {l : List Char} (hl : ∀ c ∈ l, c ≠ lbrace ∧ c ≠ rbrace) :
    ∀ c ∈ normalizeL uni l, c ≠ lbrace ∧ c ≠ rbrace := by
  intro c hc
  simp only [normalizeL, List.mem_map, List.mem_flatMap] at hc
  obtain ⟨d, ⟨a, ha, hd⟩, rfl⟩ := hc
  by_cases hasc : a.toNat ≤ 127
  · rw [hu.ascii_id a hasc] at hd
    simp only [List.mem_singleton] at hd
    subst hd
    exact pyLower_ne_brace (hl _ ha).1 (hl _ ha).2
  · have := hu.no_brace_hi a (by omega) d hd
    exact pyLower_ne_brace this.1 this.2

theorem flatMap_ascii_id {uni : Char → List Char} (hu : UniContract uni) :
    ∀ l : List Char, (∀ c ∈ l, c.toNat ≤ 127) → l.flatMap uni = l := by
  intro l
  induction l with
  | nil => simp
  | cons c rest ih =>
    intro hl
    rw [List.flatMap_cons, hu.ascii_id c (hl c (List.mem_cons_self _ _)),
      ih (fun c hc => hl c (List.mem_cons_of_mem _ hc))]
    rfl

/-- C7: normalization — transliterate to ASCII, then lowercase — is
idempotent: the first pass yields an ASCII string that the
transliteration table then maps to itself, and ASCII lowercasing is
idempotent. -/
theorem normalizeL_idem {uni : Char → List Char} (hu : UniContract uni)
    (l : List Char) : normalizeL uni (normalizeL uni l) = normalizeL uni l := by
  have hascii : ∀ c ∈ normalizeL uni l, c.toNat ≤ 127 := by
    intro c hc
    simp only [normalizeL, List.mem_map, List.mem_flatMap] at hc
    obtain ⟨d, ⟨a, _, hd⟩, rfl⟩ := hc
    exact pyLower_toNat_le (hu.ascii_out a d hd)
  rw [normalizeL, flatMap_ascii_id hu _ hascii]
  have hfix : ∀ c ∈ normalizeL uni l, pyLower c = c := by
    intro c hc
    simp only [normalizeL, List.mem_map, List.mem_flatMap] at hc
    obtain ⟨d, _, rfl⟩ := hc
    exact pyLower_idem d
  calc (normalizeL uni l).map pyLower
      = (normalizeL uni l).map id := List.map_congr_left hfix
    _ = normalizeL uni l := List.map_id _

/-- Witness for `normalizeL_idem` on the concrete model and the string
`"AbC"`. -/
theorem normalizeL_idem_witness :
    normalizeL uniModel (normalizeL uniModel "AbC".data) =
      normalizeL uniModel "AbC".data :=
  normalizeL_idem uniModel_contract "AbC".data

/-- Shape of a successful `generate_realish_name` run: the rendering
loop succeeded and the output is the validated normalization of the
rewritten template. -/
theorem generate_ok_shape {uni : Char → List Char} {d t : List Char} {o : Oracle}
    {out : List Char} (h : generate_realish_name uni d t o = .ok out) :
    ∃ res : Oracle × GenState × List Char,
      renderLoop o initState t (findall t) = .ok res ∧
      out = normalizeL uni res.2.2 ∧ localPartB (normalizeL uni res.2.2) = true := by
  rw [generate_realish_name] at h
  simp only [bind, Except.bind] at h
  cases hr : renderLoop o initState t (findall t) with
  | error e => rw [hr] at h; simp at h
  | ok res =>
    rw [hr] at h
    dsimp only at h
    rw [validate_username] at h
    by_cases hv : localPartB (normalizeL uni res.2.2) = true
    · rw [if_pos hv] at h
      simp only [pure, Except.pure, Except.ok.injEq] at h
      exact ⟨res, rfl, h.symm, hv⟩
    · rw [if_neg hv] at h
      simp at h

/-- If every placeholder of the source chunks is recognized, the chunks
after one pass render to brace-free text. -/
theorem stepped_no_brace {cs todo' : List Chunk} (hf : List.Forall₂ StepR cs todo')
    (hg : ∀ ch ∈ cs, ch.Good)
    (hrec : ∀ p, Chunk.ph p ∈ cs → recognizedB p = true) :
    ∀ c ∈ renderT todo', c ≠ lbrace ∧ c ≠ rbrace := by
  induction hf with
  | nil => simp [renderT]
  | cons hstep hrest ih =>
    rename_i a b as bs
    intro c hc
    rw [renderT_cons, List.mem_append] at hc
    rcases hc with hc | hc
    · cases hstep with
      | lit l => exact hg (Chunk.lit l) (List.mem_cons_self _ _) c hc
      | unrec p hp =>
        rw [hrec p (List.mem_cons_self _ _)] at hp
        exact absurd hp (by decide)
      | repl p g hp hfrag => exact hfrag c hc
    · exact ih (fun x hx => hg x (List.mem_cons_of_mem _ hx))
        (fun p hp => hrec p (List.mem_cons_of_mem _ hp)) c hc

/-- C4: for a template made of brace-free literal text and recognized
placeholders, a successful `generate_realish_name` output contains no
brace: every found placeholder is replaced, substituted fragments are
digit strings or word characters (never braces), and normalization
cannot introduce a brace. -/
theorem generate_no_braces {uni : Char → List Char} (hu : UniContract uni)
    {d : List Char} {o : Oracle} {out : List Char} {cs : List Chunk}
    (hcs : ∀ ch ∈ cs, ch.Good)
    (hrec : ∀ p, Chunk.ph p ∈ cs → recognizedB p = true)
    (h : generate_realish_name uni d (renderT cs) o = .ok out) :
    ∀ c ∈ out, c ≠ lbrace ∧ c ≠ rbrace := by
  obtain ⟨res, hloop, hout, -⟩ := generate_ok_shape h
  rw [findall_renderT cs hcs] at hloop
  obtain ⟨todo', hf, -, hrender⟩ := renderLoop_structured cs [] o initState
    (by simp) hcs res hloop
  rw [List.nil_append] at hrender
  rw [hout, hrender]
  exact normalizeL_no_brace hu (stepped_no_brace hf hcs hrec)

/-- Witness for `generate_no_braces`: the template `"a{number}"`
rendered with draw 5 gives `"a5"`, whose two characters are
brace-free. -/
theorem generate_no_braces_witness :
    ('a' ≠ lbrace ∧ 'a' ≠ rbrace) ∧ ('5' ≠ lbrace ∧ '5' ≠ rbrace) :=
  have happ : ∀ c ∈ ['a', '5'], c ≠ lbrace ∧ c ≠ rbrace :=
  @generate_no_braces uniModel uniModel_contract "x".data ⟨[5], []⟩ ['a', '5']
    [Chunk.lit ['a'], Chunk.ph "number".data]
    (by intro ch hch
        rcases List.mem_cons.1 hch with rfl | hch
        · intro c hc
          simp only [List.mem_singleton] at hc
          subst hc
          exact ⟨by decide, by decide⟩
        · simp only [List.mem_singleton] at hch
          subst hch
          exact ⟨by decide, by decide⟩)
    (by intro p hp
        rcases List.mem_cons.1 hp with heq | hp
        · cases heq
        · simp only [List.mem_singleton] at hp
          cases hp
          decide)
    (by rfl)
  ⟨happ 'a' (by decide), happ '5' (by decide)⟩

/-- A loop over only-unrecognized parts changes nothing and raises
nothing. -/
theorem renderLoop_all_unrec {o : Oracle} {st : GenState} {tmpl : List Char} :
    ∀ parts : List (List Char), (∀ p ∈ parts, recognizedB p = false) →
    renderLoop o st tmpl parts = .ok (o, st, tmpl) := by
  intro parts
  induction parts with
  | nil => intro _; rfl
  | cons p ps ih =>
    intro hall
    rw [renderLoop]
    simp only [bind, Except.bind]
    rw [processPart_unrec (hall p (List.mem_cons_self _ _))]
    exact ih (fun q hq => hall q (List.mem_cons_of_mem _ hq))

/-- An unrecognized placeholder survives the pass as a chunk. -/
theorem stepped_unrec_mem {cs todo' : List Chunk} (hf : List.Forall₂ StepR cs todo')
    {p : List Char} (hmem : Chunk.ph p ∈ cs) (hp : recognizedB p = false) :
    Chunk.ph p ∈ todo' := by
  induction hf with
  | nil => simp at hmem
  | cons hstep hrest ih =>
    rename_i a b as bs
    rcases List.mem_cons.1 hmem with heq | hmem
    · cases hstep with
      | lit l => cases heq
      | unrec q hq =>
        cases heq
        exact List.mem_cons_self _ _
      | repl q g hq hg =>
        cases heq
        rw [hq] at hp
        exact absurd hp (by decide)
    · exact List.mem_cons_of_mem _ (ih hmem)

theorem render_infix_of_mem {ch : Chunk} {cs : List Chunk} (h : ch ∈ cs) :
    ch.render <:+: renderT cs := by
  obtain ⟨s, t, rfl⟩ := List.append_of_mem h
  refine ⟨renderT s, renderT t, ?_⟩
  rw [renderT_append, renderT_cons]
  simp

/-- C5: a placeholder whose first colon token is not a recognized part
kind passes through the rendering loop literally — its full text,
braces included, is still present in the rewritten template — and it
causes no error; in particular a template whose placeholders are all
unrecognized comes back entirely unchanged, with untouched state. -/
theorem unknown_kind_passthrough {cs : List Chunk} {o : Oracle} {st : GenState}
    {r : Oracle × GenState × List Char} (hcs : ∀ ch ∈ cs, ch.Good)
    (h : renderLoop o st (renderT cs) (findall (renderT cs)) = .ok r) :
    (∀ p, Chunk.ph p ∈ cs → recognizedB p = false →
      (lbrace :: (p ++ [rbrace])) <:+: r.2.2) ∧
    ((∀ p, Chunk.ph p ∈ cs → recognizedB p = false) → r = (o, st, renderT cs)) := by
  constructor
  · intro p hmem hp
    rw [findall_renderT cs hcs] at h
    obtain ⟨todo', hf, -, hrender⟩ := renderLoop_structured cs [] o st (by simp) hcs r h
    rw [List.nil_append] at hrender
    rw [hrender]
    have := render_infix_of_mem (stepped_unrec_mem hf hmem hp)
    simpa [Chunk.render] using this
  · intro hall
    rw [findall_renderT cs hcs] at h
    rw [renderLoop_all_unrec (cs.filterMap Chunk.phInner) ?_] at h
    · simp only [Except.ok.injEq] at h
      exact h.symm
    · intro q hq
      rw [List.mem_filterMap] at hq
      obtain ⟨ch, hch, hinner⟩ := hq
      cases ch with
      | lit l => simp [Chunk.phInner] at hinner
      | ph pp =>
        simp only [Chunk.phInner, Option.some.injEq] at hinner
        subst hinner
        exact hall _ hch

/-- Witness for `unknown_kind_passthrough`: `"{foo}-{number}"` keeps
`"{foo}"` verbatim while `{number}` is substituted. -/
theorem unknown_kind_passthrough_witness :
    ((∀ p, Chunk.ph p ∈ [Chunk.ph "foo".data, Chunk.lit ['-'], Chunk.ph "number".data] →
        recognizedB p = false →
        (lbrace :: (p ++ [rbrace])) <:+: "\x7bfoo\x7d-5".data) ∧
     ((∀ p, Chunk.ph p ∈ [Chunk.ph "foo".data, Chunk.lit ['-'], Chunk.ph "number".data] →
        recognizedB p = false) →
       ((⟨[], []⟩, GenState.mk [['5']] [] [] [] [], "\x7bfoo\x7d-5".data) :
           Oracle × GenState × List Char) =
        (⟨[5], []⟩, initState,
          renderT [Chunk.ph "foo".data, Chunk.lit ['-'], Chunk.ph "number".data]))) :=
  @unknown_kind_passthrough [Chunk.ph "foo".data, Chunk.lit ['-'], Chunk.ph "number".data]
    ⟨[5], []⟩ initState
    (⟨[], []⟩, GenState.mk [['5']] [] [] [] [], "\x7bfoo\x7d-5".data)
    (by intro ch hch
        rcases List.mem_cons.1 hch with rfl | hch
        · exact ⟨by decide, by decide⟩
        rcases List.mem_cons.1 hch with rfl | hch
        · intro c hc
          simp only [List.mem_singleton] at hc
          subst hc
          exact ⟨by decide, by decide⟩
        · simp only [List.mem_singleton] at hch
          subst hch
          exact ⟨by decide, by decide⟩)
    (by rfl)

theorem dot_not_atom2 : isAtom2 '.' = false := by decide

theorem dot_not_atom1 : isAtom1 '.' = false := by decide

/-- Soundness of the dotted-tail matcher: a match decomposes into
`.`-prefixed nonempty second-class atoms. -/
theorem dotTail_sound : ∀ l : List Char, dotTailB l = true →
    ∃ bs : List (List Char), l = (bs.map (fun b => '.' :: b)).flatten ∧
      ∀ b ∈ bs, b ≠ [] ∧ ∀ c ∈ b, isAtom2 c = true := by
  have H : ∀ n : Nat, ∀ l : List Char, l.length = n → dotTailB l = true →
      ∃ bs : List (List Char), l = (bs.map (fun b => '.' :: b)).flatten ∧
        ∀ b ∈ bs, b ≠ [] ∧ ∀ c ∈ b, isAtom2 c = true := by
    intro n
    induction n using Nat.strong_induction_on with
    | _ n ih =>
      intro l hn h
      cases l with
      | nil => exact ⟨[], rfl, by simp⟩
      | cons c r =>
        rw [dotTailB_eq] at h
        simp only [Bool.and_eq_true, decide_eq_true_eq, decide_eq_true_iff] at h
        obtain ⟨⟨hc, hne⟩, htail⟩ := h
        have hlt : (r.dropWhile isAtom2).length < n := by
          have := length_dropWhile_lt_cons isAtom2 c r
          omega
        obtain ⟨bs, hbs, hgood⟩ :=
          ih (r.dropWhile isAtom2).length hlt (r.dropWhile isAtom2) rfl htail
        refine ⟨r.takeWhile isAtom2 :: bs, ?_, ?_⟩
        · have hcd : c = '.' := by simpa using hc
          subst hcd
          rw [List.map_cons, List.flatten_cons, ← hbs]
          simp [List.takeWhile_append_dropWhile]
        · intro b hb
          rcases List.mem_cons.1 hb with rfl | hb
          · exact ⟨hne, fun c hc => List.mem_takeWhile_imp hc⟩
          · exact hgood b hb
  intro l
  exact H l.length l rfl

/-- Completeness of the dotted-tail matcher. -/
theorem dotTail_complete : ∀ bs : List (List Char),
    (∀ b ∈ bs, b ≠ [] ∧ ∀ c ∈ b, isAtom2 c = true) →
    dotTailB ((bs.map (fun b => '.' :: b)).flatten) = true := by
  intro bs
  induction bs with
  | nil => intro _; rfl
  | cons b bs ihb =>
    intro hgood
    have hb := hgood b (List.mem_cons_self _ _)
    rw [List.map_cons, List.flatten_cons]
    rw [show ('.' :: b) ++ (bs.map (fun b => '.' :: b)).flatten =
      '.' :: (b ++ (bs.map (fun b => '.' :: b)).flatten) from rfl]
    rw [dotTailB_eq]
    obtain ⟨htake, hdrop⟩ := takeWhile_dropWhile_exact isAtom2 b
      ((bs.map (fun b => '.' :: b)).flatten) hb.2
      (by intro c hc
          cases bs with
          | nil => simp at hc
          | cons b' bs' =>
            simp only [List.map_cons, List.flatten_cons, List.cons_append,
              List.head?_cons, Option.some.injEq] at hc
            rw [← hc]
            exact dot_not_atom2)
    simp only [htake, hdrop, Bool.and_eq_true, decide_eq_true_eq, decide_eq_true_iff]
    exact ⟨⟨trivial, hb.1⟩, ihb (fun x hx => hgood x (List.mem_cons_of_mem _ hx))⟩

theorem isQChar_ne {c : Char} (h : isQChar c = true) : c ≠ dquote ∧ c ≠ bslash := by
  constructor <;> rintro rfl <;> revert h <;> decide

/-- Soundness of the quoted-string matcher. -/
theorem quotedTail_sound : ∀ l : List Char, quotedTailB l = true →
    ∃ m, SpecQSeq m ∧ l = m ++ [dquote] := by
  have H : ∀ n : Nat, ∀ l : List Char, l.length = n → quotedTailB l = true →
      ∃ m, SpecQSeq m ∧ l = m ++ [dquote] := by
    intro n
    induction n using Nat.strong_induction_on with
    | _ n ih =>
      intro l hn h
      cases l with
      | nil => rw [quotedTailB_eq] at h; simp at h
      | cons c rest =>
        rw [quotedTailB_eq] at h
        dsimp only at h
        by_cases hq : c = dquote
        · rw [if_pos hq] at h
          subst hq
          have : rest = [] := by simpa [List.isEmpty_iff] using h
          subst this
          exact ⟨[], SpecQSeq.nil, rfl⟩
        · rw [if_neg hq] at h
          by_cases hb : c = bslash
          · rw [if_pos hb] at h
            subst hb
            cases rest with
            | nil => simp at h
            | cons e r =>
              simp only [Bool.and_eq_true] at h
              obtain ⟨m, hm, hr⟩ := ih r.length (by simp at hn; omega) r rfl h.2
              exact ⟨bslash :: e :: m, SpecQSeq.esc e h.1 m hm, by rw [hr]; rfl⟩
          · rw [if_neg hb] at h
            simp only [Bool.and_eq_true] at h
            obtain ⟨m, hm, hr⟩ := ih rest.length (by simp at hn; omega) rest rfl h.2
            exact ⟨c :: m, SpecQSeq.qchar c h.1 m hm, by rw [hr]; rfl⟩
  intro l
  exact H l.length l rfl

/-- Completeness of the quoted-string matcher. -/
theorem quotedTail_complete : ∀ m : List Char, SpecQSeq m →
    quotedTailB (m ++ [dquote]) = true := by
  intro m hm
  induction hm with
  | nil => rfl
  | qchar c h rest hr ihq =>
    rw [List.cons_append, quotedTailB_eq]
    dsimp only
    rw [if_neg (isQChar_ne h).1, if_neg (isQChar_ne h).2]
    simp only [Bool.and_eq_true]
    exact ⟨h, ihq⟩
  | esc c h rest hr ihq =>
    rw [List.cons_append, quotedTailB_eq]
    dsimp only
    rw [if_neg (by decide), if_pos rfl]
    dsimp only [List.cons_append]
    simp only [Bool.and_eq_true]
    exact ⟨h, ihq⟩

/-- The dot-atom matcher decides the dot-atom form. -/
theorem dotAtom_correct (l : List Char) : dotAtomB l = true ↔ SpecDotAtom l := by
  constructor
  · intro h
    rw [dotAtomB] at h
    simp only [Bool.and_eq_true, decide_eq_true_eq, decide_eq_true_iff] at h
    obtain ⟨bs, hbs, hgood⟩ := dotTail_sound _ h.2
    refine ⟨l.takeWhile isAtom1, bs, ?_, ⟨h.1, fun c hc => List.mem_takeWhile_imp hc⟩,
      hgood⟩
    rw [joinDot, ← hbs]
    simp [List.takeWhile_append_dropWhile]
  · rintro ⟨a, as, rfl, ⟨hane, ha⟩, has⟩
    rw [dotAtomB, joinDot]
    obtain ⟨htake, hdrop⟩ := takeWhile_dropWhile_exact isAtom1 a
      ((as.map (fun b => '.' :: b)).flatten) ha
      (by intro c hc
          cases as with
          | nil => simp at hc
          | cons b' bs' =>
            simp only [List.map_cons, List.flatten_cons, List.cons_append,
              List.head?_cons, Option.some.injEq] at hc
            rw [← hc]
            exact dot_not_atom1)
    simp only [htake, hdrop, Bool.and_eq_true, decide_eq_true_eq, decide_eq_true_iff]
    exact ⟨hane, dotTail_complete as has⟩

theorem isAtom1_ne_dquote {c : Char} (h : isAtom1 c = true) : c ≠ dquote := by
  rintro rfl
  revert h
  decide

/-- The transcribed matcher decides the spec's local-part grammar. -/
theorem localPartB_correct (l : List Char) : localPartB l = true ↔ SpecLocalPart l := by
  cases l with
  | nil =>
    rw [localPartB.eq_def]
    dsimp only
    constructor
    · intro h
      exact absurd h (by simp [dotAtomB])
    · rintro (⟨a, as, hj, ⟨hane, _⟩, _⟩ | ⟨m, _, hm⟩)
      · rw [joinDot] at hj
        cases a with
        | nil => exact absurd rfl hane
        | cons x xs => simp at hj
      · simp at hm
  | cons c rest =>
    rw [localPartB.eq_def]
    dsimp only
    by_cases hq : c = dquote
    · rw [if_pos hq]
      subst hq
      constructor
      · intro h
        obtain ⟨m, hm, hr⟩ := quotedTail_sound rest h
        exact Or.inr ⟨m, hm, by rw [hr]⟩
      · rintro (⟨a, as, hj, ⟨hane, ha⟩, _⟩ | ⟨m, hm, heq⟩)
        · rw [joinDot] at hj
          cases a with
          | nil => exact absurd rfl hane
          | cons x xs =>
            simp only [List.cons_append, List.cons.injEq] at hj
            have := isAtom1_ne_dquote (ha x (List.mem_cons_self _ _))
            exact absurd hj.1.symm this
        · simp only [List.cons.injEq] at heq
          rw [heq.2]
          exact quotedTail_complete m hm
    · rw [if_neg hq]
      rw [dotAtom_correct]
      constructor
      · exact Or.inl
      · rintro (h | ⟨m, _, heq⟩)
        · exact h
        · simp only [List.cons.injEq] at heq
          exact absurd heq.1 hq

/-- C3: `validate_username` returns its input unchanged exactly when the
whole string matches the email local-part grammar (dot-separated atoms
over the allowed unquoted character sets, or a quoted string with
escapes); any successful result is the input itself; and on a mismatch
it raises `SystemExit` whose message contains the configured relay
domain and the offending string, producing no result. -/
theorem validate_username_spec (d t : List Char) :
    (validate_username d t = .ok t ↔ SpecLocalPart t) ∧
    (∀ u, validate_username d t = .ok u → u = t) ∧
    (¬ SpecLocalPart t →
      validate_username d t = .error (errPre ++ d ++ errMid ++ t ++ errSuf)) := by
  refine ⟨?_, ?_, ?_⟩
  · rw [validate_username, ← localPartB_correct]
    by_cases h : localPartB t = true
    · rw [if_pos h]
      simp [h]
    · rw [if_neg h]
      simp only [Bool.not_eq_true] at h
      simp [h]
  · intro u hu
    rw [validate_username] at hu
    by_cases h : localPartB t = true
    · rw [if_pos h] at hu
      simpa using hu.symm
    · rw [if_neg h] at hu
      simp at hu
  · intro hns
    rw [← localPartB_correct, Bool.not_eq_true] at hns
    rw [validate_username, if_neg (by rw [hns]; exact Bool.false_ne_true)]

/-- Witness for `validate_username_spec` at the valid input `"abc"` and
domain `"example.org"`. -/
theorem validate_username_spec_witness :
    (validate_username "example.org".data "abc".data = .ok "abc".data ↔
      SpecLocalPart "abc".data) ∧
    (∀ u, validate_username "example.org".data "abc".data = .ok u → u = "abc".data) ∧
    (¬ SpecLocalPart "abc".data →
      validate_username "example.org".data "abc".data =
        .error (errPre ++ "example.org".data ++ errMid ++ "abc".data ++ errSuf)) :=
  validate_username_spec "example.org".data "abc".data

/-- Witness for `number_bounded_raises`: concrete evaluation at the
docstring's own example templates. -/
theorem number_bounded_raises_witness :
    generate_realish_name uniModel "x".data "\x7bnumber:1:100\x7d".data ⟨[], []⟩ =
      .error .valueError ∧
    generate_realish_name uniModel "x".data "\x7bnumber:999\x7d".data ⟨[], []⟩ =
      .error .valueError :=
  number_bounded_raises uniModel "x".data ⟨[], []⟩

end Privacycow
